import Mathlib

/-!
# Sequential handler chain executor: a shallow embedding

This file embeds the two middleware-chain implementations of the repository
(`MiddlewareClass` in `src/unnamed/part_009`, and `Middleware` in
`src/apps/next-and-next-handle/examples/req-reference-trace.ts`) and proves
the spec's claims about them.

Modelling decisions, each traceable to the source:

* The mutable `req` object is modelled as a heap cell: `Addr` is the
  reference the executor passes around (the JS object reference), and the
  heap maps addresses to association-list records.  Reference identity is
  then literal equality of addresses.  The `res` object is never read or
  written by either executor, so it is dropped.
* Handlers are arbitrary programs of a small behaviour language `HStep`:
  mutate the shared record, invoke the continuation (optionally with an
  error argument), raise synchronously, or append a handler to the chain
  mid-run.  The executor itself is translated line by line from the source.
* The two implementations differ in exactly two places, both captured by
  `Impl`:
  - `MiddlewareClass`'s continuation is `wrrapedNext = () => this.next(req, res)`
    (zero parameters: an error argument supplied by a handler is dropped),
    while `Middleware`'s is `nextFunction = (err?) => this.next(req, res, err)`;
  - `Middleware.excute` resets `currentIndex` to `0` before running, while
    `MiddlewareClass.excute` calls `this.next(req, res)` with whatever index
    the instance holds.
* JS exception propagation is modelled by the `Option Err` component of
  every result: `some e` is an exception unwinding the stack, caught by the
  `try`/`catch` in `next` around the handler invocation.
* `routerHandler` (resp. `routeHandler`) only logs; the configuration field
  `terminalThrows` additionally lets the terminal handler raise, to settle
  the claim about a raising terminal handler.  Observable behaviour (which
  callee ran, in what order, with which reference and which record value)
  is recorded as a trace of `Event`s.
* The executor's recursion is not structurally bounded (a handler may call
  its continuation repeatedly and the chain may grow mid-run), so `next`
  takes fuel, consumed once per handler invocation.  Running out of fuel
  stops the run; every theorem supplies enough fuel for the runs it
  describes.
-/

namespace MwChain

/-- A JS object reference (the identity of `req`). -/
abbrev Addr := Nat

/-- An error value (`err`). -/
abbrev Err := Nat

/-- The value of the shared record: an association list of fields, most
recent assignment first (property write shadows the earlier value). -/
abbrev Ctx := List (Nat × Nat)

/-- A property write `req[k] = v`. -/
def ctxSet (k v : Nat) (c : Ctx) : Ctx := (k, v) :: c

/-- Reading a property: the most recent write wins. -/
def ctxGet (k : Nat) (c : Ctx) : Option Nat :=
  (c.find? fun p => p.1 = k).map fun p => p.2

/-- The heap: what record each reference currently holds. -/
abbrev Heap := Addr → Ctx

/-- Overwriting the record held at one reference. -/
def heapSet (h : Heap) (a : Addr) (c : Ctx) : Heap :=
  fun x => if x = a then c else h x

/-- One step of a handler body. -/
inductive HStep where
  /-- `req[k] = v`: mutate the shared record. -/
  | mutate (k v : Nat) : HStep
  /-- Invoke the continuation (`next(...)`), optionally with an error
  argument. -/
  | callNext (err : Option Err) : HStep
  /-- `throw e`: raise synchronously, abandoning the rest of the body. -/
  | raise (e : Err) : HStep
  /-- Call `use`/`middleware.use` mid-run, appending a handler. -/
  | append (body : List HStep) : HStep

/-- A handler is a sequence of behaviour steps. -/
abbrev Handler := List HStep

/-- An observable callee invocation, with the reference it received and the
record that reference held at that moment. -/
inductive Event where
  /-- The handler at position `idx` was invoked. -/
  | handlerCall (idx : Nat) (addr : Addr) (ctx : Ctx) : Event
  /-- The terminal handler (`routerHandler` / `routeHandler`) was invoked. -/
  | terminalCall (addr : Addr) (ctx : Ctx) : Event
  /-- The error handler was invoked with error `e`. -/
  | errorCall (e : Err) (addr : Addr) (ctx : Ctx) : Event
deriving Repr, DecidableEq

/-- Which of the two source implementations is running. -/
inductive Impl where
  /-- `MiddlewareClass` (src/unnamed/part_009): zero-argument `wrrapedNext`,
  no index reset in `excute`. -/
  | impl1 : Impl
  /-- `Middleware` (req-reference-trace.ts): `nextFunction (err?)`,
  `excute` resets `currentIndex` to 0. -/
  | impl2 : Impl
deriving Repr, DecidableEq

/-- Run configuration: the implementation, and whether the terminal handler
itself raises when invoked (the source terminal handlers only log; the
field exercises the failure boundary around the last handler). -/
structure Config where
  impl : Impl
  terminalThrows : Option Err := none

/-- The executor instance plus the run's observable history. -/
structure St where
  /-- `this.middlewares`. -/
  middlewares : List Handler
  /-- `this.currentMiddlewareIndex` / `this.currentIndex`. -/
  currentMiddlewareIndex : Nat
  /-- The heap holding the caller-owned record(s). -/
  heap : Heap
  /-- The observable invocation history. -/
  trace : List Event

/-- `errorHandler(err, req, res)`: records its invocation. -/
def errorHandler (st : St) (e : Err) (addr : Addr) : St :=
  { st with trace := st.trace ++ [Event.errorCall e addr (st.heap addr)] }

/-- `routerHandler(req, res)` / `routeHandler`: records its invocation and,
when configured, raises. -/
def routerHandler (cfg : Config) (st : St) (addr : Addr) : St × Option Err :=
  ({ st with trace := st.trace ++ [Event.terminalCall addr (st.heap addr)] },
    cfg.terminalThrows)

/-- What the continuation does with a handler-supplied error argument:
`wrrapedNext` takes no parameters, so the argument is dropped;
`nextFunction (err?)` forwards it. -/
def contAdj (cfg : Config) (e : Option Err) : Option Err :=
  match cfg.impl with
  | Impl.impl1 => none
  | Impl.impl2 => e

/-- Interpret a handler body.  `k` is the continuation the executor handed
to this handler (`wrrapedNext` / `nextFunction`).  A `some` in the result is
an exception unwinding out of the handler. -/
def runBody (k : St → Option Err → St × Option Err) (addr : Addr) :
    St → List HStep → St × Option Err
  | st, [] => (st, none)
  | st, HStep.mutate key v :: rest =>
      runBody k addr
        { st with heap := heapSet st.heap addr (ctxSet key v (st.heap addr)) } rest
  | st, HStep.append b :: rest =>
      runBody k addr { st with middlewares := st.middlewares ++ [b] } rest
  | st, HStep.raise e :: _ => (st, some e)
  | st, HStep.callNext e :: rest =>
      match k st e with
      | (st2, none) => runBody k addr st2 rest
      | (st2, some ex) => (st2, some ex)

/-- `next(req, res, err?)`, translated from the source:

* an error argument immediately dispatches to the error handler;
* an index at or past the chain length invokes the terminal handler;
* otherwise the handler at the current index is fetched, the index is
  incremented, a fresh continuation closing over `req` is constructed, and
  the handler is invoked inside `try { ... } catch (error) { this.next(req, res, error) }`.

Fuel bounds the number of handler invocations; each construction of the
continuation closes over the remaining fuel exactly as `wrrapedNext` /
`nextFunction` close over `req`. -/
def next (cfg : Config) (fuel : Nat) (st : St) (addr : Addr) (err : Option Err) :
    St × Option Err :=
  match err with
  | some e => (errorHandler st e addr, none)
  | none =>
    if st.middlewares.length ≤ st.currentMiddlewareIndex then
      routerHandler cfg st addr
    else
      match fuel with
      | 0 => (st, none)
      | fuel' + 1 =>
        let idx := st.currentMiddlewareIndex
        let body := st.middlewares.getD idx []
        let st1 : St := { st with currentMiddlewareIndex := idx + 1 }
        let st2 : St :=
          { st1 with trace := st1.trace ++ [Event.handlerCall idx addr (st1.heap addr)] }
        match runBody (fun s e => next cfg fuel' s addr (contAdj cfg e)) addr st2 body with
        | (st3, none) => (st3, none)
        | (st3, some ex) => next cfg fuel' st3 addr (some ex)

/-- `use(middleware)`: append to the chain. -/
def use (st : St) (m : Handler) : St :=
  { st with middlewares := st.middlewares ++ [m] }

/-- `excute(req, res)`: `Middleware` resets the index first,
`MiddlewareClass` does not. -/
def excute (cfg : Config) (fuel : Nat) (st : St) (addr : Addr) : St × Option Err :=
  match cfg.impl with
  | Impl.impl1 => next cfg fuel st addr none
  | Impl.impl2 => next cfg fuel { st with currentMiddlewareIndex := 0 } addr none

/-- A freshly constructed executor whose chain was built by `use` calls. -/
def initSt (hs : List Handler) (h : Heap) : St :=
  { middlewares := hs, currentMiddlewareIndex := 0, heap := h, trace := [] }

/-- Build the executor from the chain and run it once. -/
def runChain (cfg : Config) (fuel : Nat) (hs : List Handler) (addr : Addr)
    (h : Heap) : St × Option Err :=
  excute cfg fuel (initSt hs h) addr

/-- The empty heap: every reference holds the empty record. -/
def emptyHeap : Heap := fun _ => []

/-! ## Families of handler behaviours

The spec's universally quantified claims range over chains of handlers with
a stated discipline ("calls its continuation exactly once with no error",
"invokes its continuation with an error", "raises synchronously", ...).
These families realise each discipline inside the behaviour language, as
generally as the discipline allows: an arbitrary block of context mutations
before the continuation call, and an arbitrary block after it (the code a
handler runs once control returns to it). -/

/-- A block of property writes. -/
abbrev Muts := List (Nat × Nat)

/-- Apply a block of property writes in order. -/
def applyMs (ms : Muts) (c : Ctx) : Ctx :=
  ms.foldl (fun c p => ctxSet p.1 p.2 c) c

/-- The block as handler steps. -/
def mutSteps (ms : Muts) : List HStep :=
  ms.map fun p => HStep.mutate p.1 p.2

/-- A well-behaved handler: mutates, calls its continuation exactly once
with no error, then mutates again after control returns. -/
def goodBody (pre post : Muts) : Handler :=
  mutSteps pre ++ HStep.callNext none :: mutSteps post

/-- The two mutation blocks of a well-behaved handler. -/
abbrev GP := Muts × Muts

/-- A chain of well-behaved handlers. -/
def goodChain (gs : List GP) : List Handler :=
  gs.map fun g => goodBody g.1 g.2

/-- The record value after the pre-continuation mutations of a whole block
of well-behaved handlers have run (what the callee past them observes). -/
def preCtx : List GP → Ctx → Ctx
  | [], c => c
  | g :: rest, c => preCtx rest (applyMs g.1 c)

/-- The record value after the post-continuation mutations have also run,
innermost handler first (the stack-unwinding order). -/
def postFold : List GP → Ctx → Ctx
  | [], c => c
  | g :: rest, c => applyMs g.2 (postFold rest c)

/-- The invocation events of a block of well-behaved handlers occupying
positions `i, i+1, ...`, each recording the record value it observed. -/
def descEvents (addr : Addr) : List GP → Nat → Ctx → List Event
  | [], _, _ => []
  | g :: rest, i, c =>
      Event.handlerCall i addr c :: descEvents addr rest (i + 1) (applyMs g.1 c)

/-- How a block of well-behaved stack frames transforms the result coming
back from the call nested innermost: a clean result runs each frame's
post-continuation mutations; an exception is caught by the innermost
frame's `try`/`catch`, which invokes the error handler. -/
def unwindRes (addr : Addr) : List GP → St × Option Err → St × Option Err
  | [], r => r
  | g :: rest, r =>
    match unwindRes addr rest r with
    | (st, none) =>
        ({ st with heap := heapSet st.heap addr (applyMs g.2 (st.heap addr)) }, none)
    | (st, some e) =>
        ({ st with trace := st.trace ++ [Event.errorCall e addr (st.heap addr)] }, none)

/-! ## Event classifiers -/

/-- Is this event a chain-handler invocation? -/
def isHandlerEv : Event → Bool
  | Event.handlerCall _ _ _ => true
  | _ => false

/-- Is this event a terminal-handler invocation? -/
def isTerminalEv : Event → Bool
  | Event.terminalCall _ _ => true
  | _ => false

/-- Is this event an error-handler invocation? -/
def isErrorEv : Event → Bool
  | Event.errorCall _ _ _ => true
  | _ => false

/-- Is this event an invocation of the handler at position `i`? -/
def isHandlerAt (i : Nat) : Event → Bool
  | Event.handlerCall j _ _ => j == i
  | _ => false

/-- The reference an event's callee received. -/
def evAddr : Event → Addr
  | Event.handlerCall _ a _ => a
  | Event.terminalCall a _ => a
  | Event.errorCall _ a _ => a

/-! ## The single-continuation-use discipline

A handler body is disciplined when it invokes its continuation at most
once, and every handler it appends mid-run is disciplined too.  The chain
state machine's terminality claim holds exactly under this discipline. -/

/-- Is this step a continuation invocation? -/
def isNextStep : HStep → Bool
  | HStep.callNext _ => true
  | _ => false

/-- How many times a body invokes its continuation. -/
def nextCount (b : List HStep) : Nat := b.countP isNextStep

mutual

/-- One step is disciplined when any handler it appends is disciplined. -/
def stepOk : HStep → Bool
  | HStep.append b => stepsOk b && Nat.ble (nextCount b) 1
  | _ => true

/-- All steps of a body are disciplined. -/
def stepsOk : List HStep → Bool
  | [] => true
  | s :: r => stepOk s && stepsOk r

end

/-- A disciplined handler: at most one continuation call, disciplined
appends. -/
def handlerOk (b : List HStep) : Bool :=
  stepsOk b && Nat.ble (nextCount b) 1

/-- A chain of disciplined handlers. -/
def chainOk (hs : List Handler) : Bool := hs.all handlerOk

/-- Once a terminal-or-error event has occurred, every later event is a
terminal-or-error event (no handler runs past them). -/
def phased : List Event → Bool
  | [] => true
  | e :: r => if isHandlerEv e then phased r else r.all fun x => !isHandlerEv x

/-! ## Basic lemmas about the heap and the executor's equations -/

@[simp] theorem heapSet_get_eq (h : Heap) (a : Addr) (c : Ctx) :
    heapSet h a c a = c := by
  simp [heapSet]

theorem heapSet_get_ne (h : Heap) (a : Addr) (c : Ctx) (x : Addr) (hx : x ≠ a) :
    heapSet h a c x = h x := by
  simp [heapSet, hx]

@[simp] theorem heapSet_self (h : Heap) (a : Addr) : heapSet h a (h a) = h := by
  funext x
  by_cases hx : x = a <;> simp [heapSet, hx]

@[simp] theorem heapSet_heapSet (h : Heap) (a : Addr) (c c' : Ctx) :
    heapSet (heapSet h a c) a c' = heapSet h a c' := by
  funext x
  by_cases hx : x = a <;> simp [heapSet, hx]

theorem getD_append_cons {α : Type} (l1 : List α) (a : α) (t : List α) (d : α) :
    (l1 ++ a :: t).getD l1.length d = a := by
  induction l1 with
  | nil => rfl
  | cons x xs ih => simpa using ih

/-- `next` on an error argument: the error handler runs, nothing propagates. -/
theorem next_some (cfg : Config) (fuel : Nat) (st : St) (addr : Addr) (e : Err) :
    next cfg fuel st addr (some e) = (errorHandler st e addr, none) := by
  rw [next.eq_def]

/-- `next` past the end of the chain: the terminal handler runs. -/
theorem next_terminal (cfg : Config) (fuel : Nat) (st : St) (addr : Addr)
    (h : st.middlewares.length ≤ st.currentMiddlewareIndex) :
    next cfg fuel st addr none = routerHandler cfg st addr := by
  rw [next.eq_def]
  simp only [if_pos h]

/-- `next` on a live position: fetch the handler, bump the index, record the
invocation, run the body with a fresh continuation, catch what it throws. -/
theorem next_step (cfg : Config) (fuel : Nat) (st : St) (addr : Addr)
    (h : st.currentMiddlewareIndex < st.middlewares.length) :
    next cfg (fuel + 1) st addr none =
      (match
        runBody (fun s e => next cfg fuel s addr (contAdj cfg e)) addr
          { st with
              currentMiddlewareIndex := st.currentMiddlewareIndex + 1,
              trace := st.trace ++
                [Event.handlerCall st.currentMiddlewareIndex addr (st.heap addr)] }
          (st.middlewares.getD st.currentMiddlewareIndex []) with
      | (st3, none) => (st3, none)
      | (st3, some ex) => (errorHandler st3 ex addr, none)) := by
  rw [next.eq_def]
  simp only [if_neg (not_le.mpr h)]
  cases hrb :
      runBody (fun s e => next cfg fuel s addr (contAdj cfg e)) addr
        { st with
            currentMiddlewareIndex := st.currentMiddlewareIndex + 1,
            trace := st.trace ++
              [Event.handlerCall st.currentMiddlewareIndex addr (st.heap addr)] }
        (st.middlewares.getD st.currentMiddlewareIndex []) with
  | mk st3 exc =>
    cases exc with
    | none => simp [hrb]
    | some ex => simp [hrb, next_some]

@[simp] theorem contAdj_none (cfg : Config) : contAdj cfg none = none := by
  cases cfg with
  | mk impl t => cases impl <;> rfl

/-- Running a block of mutation steps just rewrites the shared record. -/
theorem runBody_mutSteps (k : St → Option Err → St × Option Err) (addr : Addr)
    (ms : Muts) :
    ∀ (st : St) (rest : List HStep),
      runBody k addr st (mutSteps ms ++ rest) =
        runBody k addr
          { st with heap := heapSet st.heap addr (applyMs ms (st.heap addr)) } rest := by
  induction ms with
  | nil => intro st rest; simp [mutSteps, applyMs]
  | cons p ms ih =>
      intro st rest
      show runBody k addr st (HStep.mutate p.1 p.2 :: (mutSteps ms ++ rest)) = _
      rw [runBody, ih]
      simp [applyMs, St.mk.injEq]

/-! ## The descent lemma

Running `next` from a position followed by a block of well-behaved handlers
is: invoke each of them in order (recording `descEvents`, applying the
pre-continuation mutations), reach the position past the block, and then
let the block's stack frames transform whatever that inner call produced
(`unwindRes`).  Every later theorem instantiates this. -/

theorem lpDesc (cfg : Config) (tail : List Handler) :
    ∀ (gs : List GP) (fuel : Nat) (st : St) (addr : Addr) (done : List Handler),
      st.middlewares = done ++ goodChain gs ++ tail →
      st.currentMiddlewareIndex = done.length →
      next cfg (gs.length + fuel) st addr none =
        unwindRes addr gs
          (next cfg fuel
            { st with
                currentMiddlewareIndex := done.length + gs.length,
                heap := heapSet st.heap addr (preCtx gs (st.heap addr)),
                trace := st.trace ++ descEvents addr gs done.length (st.heap addr) }
            addr none) := by
  intro gs
  induction gs with
  | nil =>
      intro fuel st addr done hmw hidx
      simp only [List.length_nil, Nat.zero_add, Nat.add_zero, unwindRes, preCtx,
        descEvents, List.append_nil, heapSet_self, ← hidx]
  | cons g rest ih =>
      intro fuel st addr done hmw hidx
      have hlen : st.currentMiddlewareIndex < st.middlewares.length := by
        rw [hmw, hidx]
        simp [goodChain]
      have hget : st.middlewares.getD st.currentMiddlewareIndex [] = goodBody g.1 g.2 := by
        rw [hmw, hidx]
        have hsplit : done ++ goodChain (g :: rest) ++ tail
            = done ++ goodBody g.1 g.2 :: (goodChain rest ++ tail) := by
          simp [goodChain]
        rw [hsplit, getD_append_cons]
      have hfuel : (g :: rest).length + fuel = (rest.length + fuel) + 1 := by
        simp only [List.length_cons]
        omega
      rw [hfuel, next_step cfg (rest.length + fuel) st addr hlen, hget, goodBody,
        runBody_mutSteps]
      rw [runBody]
      dsimp only
      simp only [contAdj_none]
      have hih := ih fuel
        { middlewares := st.middlewares
          currentMiddlewareIndex := st.currentMiddlewareIndex + 1
          heap := heapSet st.heap addr (applyMs g.1 (st.heap addr))
          trace := st.trace ++
            [Event.handlerCall st.currentMiddlewareIndex addr (st.heap addr)] }
        addr (done ++ [goodBody g.1 g.2])
        (by simp [hmw, goodChain])
        (by simp [hidx])
      dsimp only at hih
      rw [hih]
      have hmid :
          ({ middlewares := st.middlewares
             currentMiddlewareIndex := (done ++ [goodBody g.1 g.2]).length + rest.length
             heap := heapSet (heapSet st.heap addr (applyMs g.1 (st.heap addr))) addr
               (preCtx rest
                 (heapSet st.heap addr (applyMs g.1 (st.heap addr)) addr))
             trace := (st.trace ++
                 [Event.handlerCall st.currentMiddlewareIndex addr (st.heap addr)]) ++
               descEvents addr rest (done ++ [goodBody g.1 g.2]).length
                 (heapSet st.heap addr (applyMs g.1 (st.heap addr)) addr) } : St) =
          { st with
              currentMiddlewareIndex := done.length + (g :: rest).length,
              heap := heapSet st.heap addr (preCtx (g :: rest) (st.heap addr)),
              trace := st.trace ++ descEvents addr (g :: rest) done.length (st.heap addr) } := by
        simp only [St.mk.injEq, heapSet_get_eq, heapSet_heapSet, preCtx, descEvents,
          List.length_append, List.length_cons, List.length_nil, List.append_assoc,
          List.singleton_append, hidx, true_and, and_true]
        omega
      rw [hmid]
      cases hu :
          unwindRes addr rest
            (next cfg fuel
              { st with
                  currentMiddlewareIndex := done.length + (g :: rest).length,
                  heap := heapSet st.heap addr (preCtx (g :: rest) (st.heap addr)),
                  trace := st.trace ++
                    descEvents addr (g :: rest) done.length (st.heap addr) }
              addr none) with
      | mk stA excA =>
        cases excA with
        | none =>
            dsimp only
            rw [show mutSteps g.2 = mutSteps g.2 ++ [] from (List.append_nil _).symm,
              runBody_mutSteps]
            rw [runBody]
            show _ = unwindRes addr (g :: rest) _
            rw [unwindRes, hu]
        | some e =>
            dsimp only
            show _ = unwindRes addr (g :: rest) _
            rw [unwindRes, hu]
            simp [errorHandler]

/-- Unwinding a clean result: each frame's post-continuation mutations run,
innermost first; no events are added. -/
theorem unwind_none (addr : Addr) :
    ∀ (gs : List GP) (st : St),
      unwindRes addr gs (st, none) =
        ({ st with heap := heapSet st.heap addr (postFold gs (st.heap addr)) }, none) := by
  intro gs
  induction gs with
  | nil => intro st; simp [unwindRes, postFold]
  | cons g rest ih =>
      intro st
      rw [unwindRes, ih]
      simp [postFold]

/-- Unwinding an exception through a non-empty block: the innermost frame's
`catch` invokes the error handler with the record as the raiser left it; the
innermost frame's own post-continuation mutations are skipped, the outer
frames' still run. -/
theorem unwind_some (addr : Addr) (e : Err) :
    ∀ (gs : List GP) (g : GP) (st : St),
      unwindRes addr (gs ++ [g]) (st, some e) =
        ({ st with
            heap := heapSet st.heap addr (postFold gs (st.heap addr)),
            trace := st.trace ++ [Event.errorCall e addr (st.heap addr)] }, none) := by
  intro gs
  induction gs with
  | nil => intro g st; simp [unwindRes, postFold]
  | cons x gs ih =>
      intro g st
      rw [List.cons_append, unwindRes, ih]
      simp [postFold]

/-- On a freshly built executor the two `excute`s agree: the index is
already `0`. -/
theorem excute_initSt (cfg : Config) (fuel : Nat) (hs : List Handler) (h : Heap)
    (addr : Addr) :
    excute cfg fuel (initSt hs h) addr = next cfg fuel (initSt hs h) addr none := by
  cases cfg with
  | mk impl t => cases impl <;> rfl

/-- A full run over a chain of well-behaved handlers: descend through all of
them, invoke the terminal handler, unwind. -/
theorem goodRun (cfg : Config) (gs : List GP) (fuel : Nat) (addr : Addr) (h : Heap) :
    runChain cfg (gs.length + fuel) (goodChain gs) addr h =
      unwindRes addr gs
        (routerHandler cfg
          { middlewares := goodChain gs
            currentMiddlewareIndex := gs.length
            heap := heapSet h addr (preCtx gs (h addr))
            trace := descEvents addr gs 0 (h addr) } addr) := by
  rw [runChain, excute_initSt,
    lpDesc cfg [] gs fuel (initSt (goodChain gs) h) addr []
      (by simp [initSt]) (by simp [initSt])]
  rw [next_terminal _ _ _ _ (by simp [initSt, goodChain])]
  simp [initSt]

/-- A clean full run (terminal handler does not raise), in closed form:
the handlers fire in order at positions `0, ..., N-1`, the terminal handler
fires once after them with all pre-continuation mutations visible, nothing
propagates, and the final index is the chain length. -/
theorem goodRunClean (impl : Impl) (gs : List GP) (fuel : Nat) (addr : Addr) (h : Heap) :
    runChain ⟨impl, none⟩ (gs.length + fuel) (goodChain gs) addr h =
      ({ middlewares := goodChain gs
         currentMiddlewareIndex := gs.length
         heap := heapSet h addr (postFold gs (preCtx gs (h addr)))
         trace := descEvents addr gs 0 (h addr)
           ++ [Event.terminalCall addr (preCtx gs (h addr))] }, none) := by
  rw [goodRun, routerHandler]
  dsimp only
  rw [unwind_none]
  simp

/-- A full run in which the terminal handler raises `e` (non-empty chain):
every handler still fires, the terminal handler fires, and the raise is
caught by the `try`/`catch` wrapped around the last handler's invocation,
which passes it to the error handler; nothing propagates to the caller. -/
theorem goodRunThrow (impl : Impl) (e : Err) (gs : List GP) (g : GP) (fuel : Nat)
    (addr : Addr) (h : Heap) :
    runChain ⟨impl, some e⟩ ((gs ++ [g]).length + fuel) (goodChain (gs ++ [g])) addr h =
      ({ middlewares := goodChain (gs ++ [g])
         currentMiddlewareIndex := (gs ++ [g]).length
         heap := heapSet h addr (postFold gs (preCtx (gs ++ [g]) (h addr)))
         trace := descEvents addr (gs ++ [g]) 0 (h addr)
           ++ [Event.terminalCall addr (preCtx (gs ++ [g]) (h addr)),
               Event.errorCall e addr (preCtx (gs ++ [g]) (h addr))] }, none) := by
  rw [goodRun, routerHandler]
  dsimp only
  rw [unwind_some]
  simp

/-- Starting a fresh run whose chain begins with a block of well-behaved
handlers: descend through the block, then continue from its end. -/
theorem runPre (cfg : Config) (gs : List GP) (rest : List Handler) (fuel : Nat)
    (addr : Addr) (h : Heap) :
    runChain cfg (gs.length + fuel) (goodChain gs ++ rest) addr h =
      unwindRes addr gs
        (next cfg fuel
          { middlewares := goodChain gs ++ rest
            currentMiddlewareIndex := gs.length
            heap := heapSet h addr (preCtx gs (h addr))
            trace := descEvents addr gs 0 (h addr) } addr none) := by
  rw [runChain, excute_initSt,
    lpDesc cfg rest gs fuel _ addr [] (by simp [initSt]) (by simp [initSt])]
  simp [initSt]

/-- Invoking a handler that mutates and then raises: the raise aborts the
rest of the body, the `try`/`catch` around the invocation hands the raised
value to the error handler with the record as the handler left it, and
nothing propagates further. -/
theorem next_raise (cfg : Config) (fuel : Nat) (st : St) (addr : Addr)
    (pre : Muts) (e : Err) (rest : List HStep)
    (hlen : st.currentMiddlewareIndex < st.middlewares.length)
    (hget : st.middlewares.getD st.currentMiddlewareIndex []
      = mutSteps pre ++ HStep.raise e :: rest) :
    next cfg (fuel + 1) st addr none =
      ({ st with
          currentMiddlewareIndex := st.currentMiddlewareIndex + 1,
          heap := heapSet st.heap addr (applyMs pre (st.heap addr)),
          trace := st.trace ++
            [Event.handlerCall st.currentMiddlewareIndex addr (st.heap addr),
             Event.errorCall e addr (applyMs pre (st.heap addr))] }, none) := by
  rw [next_step cfg fuel st addr hlen, hget, runBody_mutSteps, runBody]
  dsimp only
  simp [errorHandler, St.mk.injEq]

/-- Invoking a handler that signals failure through `nextFunction (err)`
(the `Middleware` implementation): the error handler runs immediately with
the record as mutated so far, control returns into the handler, its
post-continuation mutations still run, and nothing propagates. -/
theorem next_errNext (t : Option Err) (fuel : Nat) (st : St) (addr : Addr)
    (pre post : Muts) (e : Err)
    (hlen : st.currentMiddlewareIndex < st.middlewares.length)
    (hget : st.middlewares.getD st.currentMiddlewareIndex []
      = mutSteps pre ++ HStep.callNext (some e) :: mutSteps post) :
    next ⟨Impl.impl2, t⟩ (fuel + 1) st addr none =
      ({ st with
          currentMiddlewareIndex := st.currentMiddlewareIndex + 1,
          heap := heapSet st.heap addr (applyMs post (applyMs pre (st.heap addr))),
          trace := st.trace ++
            [Event.handlerCall st.currentMiddlewareIndex addr (st.heap addr),
             Event.errorCall e addr (applyMs pre (st.heap addr))] }, none) := by
  rw [next_step _ fuel st addr hlen, hget, runBody_mutSteps, runBody]
  dsimp only
  rw [show contAdj ⟨Impl.impl2, t⟩ (some e) = some e from rfl, next_some]
  dsimp only
  rw [show mutSteps post = mutSteps post ++ [] from (List.append_nil _).symm,
    runBody_mutSteps, runBody]
  dsimp only
  simp [errorHandler, St.mk.injEq]

@[simp] theorem goodChain_length (gs : List GP) : (goodChain gs).length = gs.length := by
  simp [goodChain]

/-- Fetching the handler right after a well-behaved block. -/
theorem getD_goodChain_cons (gs : List GP) (b : Handler) (t : List Handler) :
    (goodChain gs ++ b :: t).getD gs.length [] = b := by
  rw [← goodChain_length gs]
  exact getD_append_cons _ _ _ _

theorem getD_append_lt {α : Type} :
    ∀ (l1 l2 : List α) (j : Nat) (d : α), j < l1.length →
      (l1 ++ l2).getD j d = l1.getD j d := by
  intro l1
  induction l1 with
  | nil => intro l2 j d hj; simp at hj
  | cons x xs ih =>
      intro l2 j d hj
      cases j with
      | zero => rfl
      | succ j => exact ih l2 j d (by simpa using hj)

@[simp] theorem descEvents_length (addr : Addr) :
    ∀ (gs : List GP) (i : Nat) (c : Ctx), (descEvents addr gs i c).length = gs.length := by
  intro gs
  induction gs with
  | nil => intro i c; rfl
  | cons g rest ih => intro i c; simp [descEvents, ih]

/-- The `j`-th invocation of a well-behaved block is the handler at position
`i + j`, observing exactly the pre-continuation writes of the handlers
before it. -/
theorem descEvents_getD (addr : Addr) (d : Event) :
    ∀ (gs : List GP) (j i : Nat) (c : Ctx), j < gs.length →
      (descEvents addr gs i c).getD j d
        = Event.handlerCall (i + j) addr (preCtx (gs.take j) c) := by
  intro gs
  induction gs with
  | nil => intro j i c hj; simp at hj
  | cons g rest ih =>
      intro j i c hj
      cases j with
      | zero => simp [descEvents, preCtx]
      | succ j =>
          have := ih j (i + 1) (applyMs g.1 c) (by simpa using hj)
          simp only [descEvents, List.getD_cons_succ, this, List.take_succ_cons, preCtx]
          congr 1
          omega

/-- Appending one more well-behaved handler to a block appends one more
invocation event, at the position past the block. -/
theorem descEvents_append_single (addr : Addr) (np : GP) :
    ∀ (gs : List GP) (i : Nat) (c : Ctx),
      descEvents addr (gs ++ [np]) i c
        = descEvents addr gs i c
          ++ [Event.handlerCall (i + gs.length) addr (preCtx gs c)] := by
  intro gs
  induction gs with
  | nil => intro i c; simp [descEvents, preCtx]
  | cons g rest ih =>
      intro i c
      show descEvents addr (g :: (rest ++ [np])) i c = _
      rw [descEvents, ih]
      have harith : i + 1 + rest.length = i + (g :: rest).length := by
        simp only [List.length_cons]
        omega
      rw [harith]
      simp [descEvents, preCtx]

/-- Every event of a well-behaved block is a handler invocation. -/
theorem descEvents_countH (addr : Addr) :
    ∀ (gs : List GP) (i : Nat) (c : Ctx),
      (descEvents addr gs i c).countP isHandlerEv = gs.length := by
  intro gs
  induction gs with
  | nil => intro i c; rfl
  | cons g rest ih =>
      intro i c
      simp [descEvents, List.countP_cons, ih, isHandlerEv]

/-! ## Address invariance: every callee receives the reference `run` got

The executor only ever passes along the `req` parameter it received; the
continuation captures that same reference.  Hence every recorded event of a
run carries the address passed to `excute` — regardless of what the
handlers do. -/

theorem runBody_addr (addr : Addr) (k : St → Option Err → St × Option Err)
    (hk : ∀ (s : St) (e : Option Err),
      ∃ Δ, (k s e).1.trace = s.trace ++ Δ ∧ ∀ ev ∈ Δ, evAddr ev = addr) :
    ∀ (body : List HStep) (st : St),
      ∃ Δ, (runBody k addr st body).1.trace = st.trace ++ Δ
        ∧ ∀ ev ∈ Δ, evAddr ev = addr := by
  intro body
  induction body with
  | nil => intro st; exact ⟨[], by simp [runBody], by simp⟩
  | cons s rest ih =>
      intro st
      cases s with
      | mutate kk v =>
          rw [runBody]
          exact ih _
      | append b =>
          rw [runBody]
          exact ih _
      | raise e => exact ⟨[], by simp [runBody], by simp⟩
      | callNext e =>
          rw [runBody]
          obtain ⟨Δ1, h1, ha1⟩ := hk st e
          cases hres : k st e with
          | mk st2 exc =>
            rw [hres] at h1
            cases exc with
            | none =>
                obtain ⟨Δ2, h2, ha2⟩ := ih st2
                refine ⟨Δ1 ++ Δ2, ?_, ?_⟩
                · dsimp only
                  rw [h2, h1, List.append_assoc]
                · intro ev hev
                  rcases List.mem_append.mp hev with hmem | hmem
                  · exact ha1 ev hmem
                  · exact ha2 ev hmem
            | some ex => exact ⟨Δ1, by dsimp only; exact h1, ha1⟩

theorem next_addr (cfg : Config) :
    ∀ (fuel : Nat) (st : St) (addr : Addr) (err : Option Err),
      ∃ Δ, (next cfg fuel st addr err).1.trace = st.trace ++ Δ
        ∧ ∀ ev ∈ Δ, evAddr ev = addr := by
  intro fuel
  induction fuel with
  | zero =>
      intro st addr err
      cases err with
      | some e => exact ⟨[Event.errorCall e addr (st.heap addr)],
          by rw [next_some]; rfl, by simp [evAddr]⟩
      | none =>
          by_cases hg : st.middlewares.length ≤ st.currentMiddlewareIndex
          · exact ⟨[Event.terminalCall addr (st.heap addr)],
              by rw [next_terminal _ _ _ _ hg]; rfl, by simp [evAddr]⟩
          · refine ⟨[], ?_, by simp⟩
            rw [next.eq_def]
            simp [if_neg hg]
  | succ fuel ih =>
      intro st addr err
      cases err with
      | some e => exact ⟨[Event.errorCall e addr (st.heap addr)],
          by rw [next_some]; rfl, by simp [evAddr]⟩
      | none =>
          by_cases hg : st.middlewares.length ≤ st.currentMiddlewareIndex
          · exact ⟨[Event.terminalCall addr (st.heap addr)],
              by rw [next_terminal _ _ _ _ hg]; rfl, by simp [evAddr]⟩
          · rw [next_step cfg fuel st addr (not_le.mp hg)]
            obtain ⟨ΔB, hB, haB⟩ :=
              runBody_addr addr (fun s e => next cfg fuel s addr (contAdj cfg e))
                (fun s e => ih s addr (contAdj cfg e))
                (st.middlewares.getD st.currentMiddlewareIndex [])
                { st with
                    currentMiddlewareIndex := st.currentMiddlewareIndex + 1,
                    trace := st.trace ++
                      [Event.handlerCall st.currentMiddlewareIndex addr (st.heap addr)] }
            cases hres :
                runBody (fun s e => next cfg fuel s addr (contAdj cfg e)) addr
                  { st with
                      currentMiddlewareIndex := st.currentMiddlewareIndex + 1,
                      trace := st.trace ++
                        [Event.handlerCall st.currentMiddlewareIndex addr (st.heap addr)] }
                  (st.middlewares.getD st.currentMiddlewareIndex []) with
            | mk st3 exc =>
              rw [hres] at hB
              cases exc with
              | none =>
                  refine ⟨Event.handlerCall st.currentMiddlewareIndex addr (st.heap addr)
                    :: ΔB, ?_, ?_⟩
                  · dsimp only
                    rw [hB]
                    simp
                  · intro ev hev
                    rcases List.mem_cons.mp hev with hmem | hmem
                    · rw [hmem]; rfl
                    · exact haB ev hmem
              | some ex =>
                  refine ⟨Event.handlerCall st.currentMiddlewareIndex addr (st.heap addr)
                    :: ΔB ++ [Event.errorCall ex addr (st3.heap addr)], ?_, ?_⟩
                  · dsimp only
                    rw [errorHandler]
                    dsimp only
                    rw [hB]
                    simp
                  · intro ev hev
                    rcases List.mem_append.mp hev with hmem | hmem
                    · rcases List.mem_cons.mp hmem with hmem2 | hmem2
                      · rw [hmem2]; rfl
                      · exact haB ev hmem2
                    · simp at hmem
                      rw [hmem]; rfl

/-- Invoking a handler that calls its zero-argument continuation twice,
with only well-behaved handlers after it: the first call runs the rest of
the chain and the terminal handler; the second call re-enters `next` with
the instance index now at the chain length, so the terminal handler is
invoked a second time (the executor does not enforce single use, and the
continuation does not resume at the position after the handler). -/
theorem next_doubleNext (impl : Impl) (fuel : Nat) (st : St) (addr : Addr)
    (ms : Muts) (gs2 : List GP) (done : List Handler)
    (hmw : st.middlewares
      = done ++ (mutSteps ms ++ [HStep.callNext none, HStep.callNext none])
          :: goodChain gs2)
    (hidx : st.currentMiddlewareIndex = done.length) :
    next ⟨impl, none⟩ ((gs2.length + fuel) + 1) st addr none =
      ({ st with
          currentMiddlewareIndex := st.middlewares.length,
          heap := heapSet st.heap addr
            (postFold gs2 (preCtx gs2 (applyMs ms (st.heap addr)))),
          trace := st.trace
            ++ Event.handlerCall done.length addr (st.heap addr)
              :: descEvents addr gs2 (done.length + 1) (applyMs ms (st.heap addr))
            ++ [Event.terminalCall addr (preCtx gs2 (applyMs ms (st.heap addr))),
                Event.terminalCall addr
                  (postFold gs2 (preCtx gs2 (applyMs ms (st.heap addr))))] }, none) := by
  have hlen : st.currentMiddlewareIndex < st.middlewares.length := by
    rw [hmw, hidx]
    simp
  have hget : st.middlewares.getD st.currentMiddlewareIndex []
      = mutSteps ms ++ [HStep.callNext none, HStep.callNext none] := by
    rw [hmw, hidx]
    exact getD_append_cons _ _ _ _
  rw [next_step _ (gs2.length + fuel) st addr hlen, hget, runBody_mutSteps]
  rw [runBody]
  dsimp only
  simp only [contAdj_none]
  have hd := lpDesc ⟨impl, none⟩ [] gs2 fuel
    { middlewares := st.middlewares
      currentMiddlewareIndex := st.currentMiddlewareIndex + 1
      heap := heapSet st.heap addr (applyMs ms (st.heap addr))
      trace := st.trace ++
        [Event.handlerCall st.currentMiddlewareIndex addr (st.heap addr)] }
    addr (done ++ [mutSteps ms ++ [HStep.callNext none, HStep.callNext none]])
    (by simp [hmw]) (by simp [hidx])
  dsimp only at hd
  rw [hd]
  rw [next_terminal _ _ _ _ (by simp [hmw]; omega)]
  rw [routerHandler]
  dsimp only
  rw [unwind_none]
  dsimp only
  rw [runBody]
  simp only [contAdj_none]
  rw [next_terminal _ _ _ _ (by simp [hmw]; omega)]
  rw [routerHandler]
  dsimp only
  rw [runBody]
  dsimp only
  simp only [St.mk.injEq, heapSet_get_eq, heapSet_heapSet, hidx, hmw]
  have hlen2 :
      (done ++ [mutSteps ms ++ [HStep.callNext none, HStep.callNext none]]).length
        + gs2.length
      = (done ++ (mutSteps ms ++ [HStep.callNext none, HStep.callNext none])
          :: goodChain gs2).length := by
    simp
    omega
  rw [hlen2]
  have hlen3 :
      (done ++ [mutSteps ms ++ [HStep.callNext none, HStep.callNext none]]).length
        = done.length + 1 := by
    simp
  rw [hlen3]
  simp [List.append_assoc]

/-- Invoking a handler that appends a well-behaved handler to the chain and
then advances, with only well-behaved handlers after it: the advance
re-reads the grown chain, so the appended handler is invoked in the same
run, after the original suffix and before the terminal handler. -/
theorem next_appendNext (impl : Impl) (fuel : Nat) (st : St) (addr : Addr)
    (ms : Muts) (np : GP) (gs2 : List GP) (done : List Handler)
    (hmw : st.middlewares
      = done ++ (mutSteps ms
          ++ HStep.append (goodBody np.1 np.2) :: [HStep.callNext none])
          :: goodChain gs2)
    (hidx : st.currentMiddlewareIndex = done.length) :
    next ⟨impl, none⟩ (((gs2 ++ [np]).length + fuel) + 1) st addr none =
      ({ st with
          middlewares := st.middlewares ++ [goodBody np.1 np.2],
          currentMiddlewareIndex := st.middlewares.length + 1,
          heap := heapSet st.heap addr
            (postFold (gs2 ++ [np]) (preCtx (gs2 ++ [np]) (applyMs ms (st.heap addr)))),
          trace := st.trace
            ++ Event.handlerCall done.length addr (st.heap addr)
              :: descEvents addr (gs2 ++ [np]) (done.length + 1)
                  (applyMs ms (st.heap addr))
            ++ [Event.terminalCall addr
                (preCtx (gs2 ++ [np]) (applyMs ms (st.heap addr)))] }, none) := by
  have hlen : st.currentMiddlewareIndex < st.middlewares.length := by
    rw [hmw, hidx]
    simp
  have hget : st.middlewares.getD st.currentMiddlewareIndex []
      = mutSteps ms ++ HStep.append (goodBody np.1 np.2) :: [HStep.callNext none] := by
    rw [hmw, hidx]
    exact getD_append_cons _ _ _ _
  rw [next_step _ ((gs2 ++ [np]).length + fuel) st addr hlen, hget, runBody_mutSteps]
  rw [runBody]
  rw [runBody]
  dsimp only
  simp only [contAdj_none]
  have hd := lpDesc ⟨impl, none⟩ [] (gs2 ++ [np]) fuel
    { middlewares := st.middlewares ++ [goodBody np.1 np.2]
      currentMiddlewareIndex := st.currentMiddlewareIndex + 1
      heap := heapSet st.heap addr (applyMs ms (st.heap addr))
      trace := st.trace ++
        [Event.handlerCall st.currentMiddlewareIndex addr (st.heap addr)] }
    addr (done ++ [mutSteps ms
      ++ HStep.append (goodBody np.1 np.2) :: [HStep.callNext none]])
    (by simp [hmw, goodChain]) (by simp [hidx])
  dsimp only at hd
  rw [hd]
  rw [next_terminal _ _ _ _ (by simp [hmw]; omega)]
  rw [routerHandler]
  dsimp only
  rw [unwind_none]
  dsimp only
  rw [runBody]
  dsimp only
  simp only [St.mk.injEq, heapSet_get_eq, heapSet_heapSet, hidx, hmw]
  have hlen2 :
      (done ++ [mutSteps ms
          ++ HStep.append (goodBody np.1 np.2) :: [HStep.callNext none]]).length
        + (gs2 ++ [np]).length
      = (done ++ (mutSteps ms
          ++ HStep.append (goodBody np.1 np.2) :: [HStep.callNext none])
          :: goodChain gs2).length + 1 := by
    simp
    omega
  rw [hlen2]
  have hlen3 :
      (done ++ [mutSteps ms
          ++ HStep.append (goodBody np.1 np.2) :: [HStep.callNext none]]).length
        = done.length + 1 := by
    simp
  rw [hlen3]
  simp [List.append_assoc]

/-! ## The claims -/

/-- C1, counterexample.  The claim asserts that in *both* implementations a
handler invoking its continuation with a non-empty error argument diverts
to the error handler, skips the remaining handlers, and never swallows the
error.  In `MiddlewareClass` the continuation is
`wrrapedNext = () => this.next(req, res)`: it takes no parameters, so the
error argument is discarded.  Concretely, with the chain
`[h0 calls next(5); h1 calls next()]` the run executes `h1` and the
terminal handler, and the error handler never runs — the error is
swallowed. -/
theorem C1_cex_wrrapedNext_swallows_error :
    (runChain ⟨Impl.impl1, none⟩ 2
        [[HStep.callNext (some 5)], [HStep.callNext none]] 0 emptyHeap).1.trace
      = [Event.handlerCall 0 0 [], Event.handlerCall 1 0 [], Event.terminalCall 0 []]
    ∧ (runChain ⟨Impl.impl1, none⟩ 2
        [[HStep.callNext (some 5)], [HStep.callNext none]] 0 emptyHeap).1.trace.countP
        (isHandlerAt 1) = 1
    ∧ (runChain ⟨Impl.impl1, none⟩ 2
        [[HStep.callNext (some 5)], [HStep.callNext none]] 0 emptyHeap).1.trace.countP
        isErrorEv = 0 := by
  refine ⟨by decide, by decide, by decide⟩

/-- C1, as amended: the short-circuit-on-continuation-error guarantee holds
for the `Middleware` implementation (whose `nextFunction (err?)` forwards
the argument).  For every chain made of well-behaved handlers, then a
handler whose continuation call carries error `e`, then arbitrary further
handlers: the run invokes handlers `0..k` in order, invokes the error
handler exactly once with exactly `e` and the run's reference (the error is
not swallowed and not retried), runs no handler past position `k`, and
never reaches the terminal handler.  (In `MiddlewareClass` the error
argument is instead discarded and the chain continues; errors there can
only be signalled by raising.) -/
theorem C1_amended_nextFunction_error_short_circuits (gs : List GP) (pre post : Muts)
    (e : Err) (tail : List Handler) (fuel : Nat) (addr : Addr) (h : Heap) :
    runChain ⟨Impl.impl2, none⟩ (gs.length + (fuel + 1))
        (goodChain gs ++ (mutSteps pre ++ HStep.callNext (some e) :: mutSteps post) :: tail)
        addr h
      = ({ middlewares := goodChain gs
             ++ (mutSteps pre ++ HStep.callNext (some e) :: mutSteps post) :: tail
           currentMiddlewareIndex := gs.length + 1
           heap := heapSet h addr
             (postFold gs (applyMs post (applyMs pre (preCtx gs (h addr)))))
           trace := descEvents addr gs 0 (h addr)
             ++ [Event.handlerCall gs.length addr (preCtx gs (h addr)),
                 Event.errorCall e addr (applyMs pre (preCtx gs (h addr)))] }, none) := by
  rw [runPre]
  rw [next_errNext none fuel _ addr pre post e
    (by simp [goodChain])
    (getD_goodChain_cons gs _ tail)]
  rw [unwind_none]
  simp [St.mk.injEq]

/-- C2: for a chain of `N` well-behaved handlers (each mutates, calls its
continuation exactly once with no error, possibly mutates again), a single
run invokes the handlers at positions `0, 1, ..., N-1` in exactly that
order (the trace is `descEvents`, whose `j`-th entry is the invocation of
the handler at position `j`), each exactly once, then the terminal handler
exactly once, after the last handler's continuation call; nothing
propagates out of `run`.  Both implementations behave identically here. -/
theorem C2_append_order_each_once_terminal_once (impl : Impl) (gs : List GP)
    (fuel : Nat) (addr : Addr) (h : Heap) :
    (runChain ⟨impl, none⟩ (gs.length + fuel) (goodChain gs) addr h).1.trace
        = descEvents addr gs 0 (h addr)
          ++ [Event.terminalCall addr (preCtx gs (h addr))]
    ∧ (runChain ⟨impl, none⟩ (gs.length + fuel) (goodChain gs) addr h).2 = none := by
  rw [goodRunClean]
  exact ⟨rfl, rfl⟩

/-- C3: a handler that raises synchronously (after some mutations, with
arbitrary unreachable steps after the raise) produces the same observable
outcome as signalling the error through the continuation: the error handler
is invoked exactly once with the raised value and the run's reference, no
handler past position `k` runs, and the terminal handler is never invoked.
This holds in both implementations (the `try`/`catch` around the handler
invocation is identical in the two files). -/
theorem C3_sync_raise_diverts_to_error_handler (cfg : Config) (gs : List GP)
    (pre : Muts) (e : Err) (restSteps : List HStep) (tail : List Handler)
    (fuel : Nat) (addr : Addr) (h : Heap) :
    runChain cfg (gs.length + (fuel + 1))
        (goodChain gs ++ (mutSteps pre ++ HStep.raise e :: restSteps) :: tail) addr h
      = ({ middlewares := goodChain gs
             ++ (mutSteps pre ++ HStep.raise e :: restSteps) :: tail
           currentMiddlewareIndex := gs.length + 1
           heap := heapSet h addr (postFold gs (applyMs pre (preCtx gs (h addr))))
           trace := descEvents addr gs 0 (h addr)
             ++ [Event.handlerCall gs.length addr (preCtx gs (h addr)),
                 Event.errorCall e addr (applyMs pre (preCtx gs (h addr)))] }, none) := by
  rw [runPre]
  rw [next_raise cfg fuel _ addr pre e restSteps
    (by simp [goodChain])
    (getD_goodChain_cons gs _ tail)]
  rw [unwind_none]
  simp [St.mk.injEq]

/-- C8: for every non-empty chain of well-behaved handlers, if the terminal
handler itself raises `e`, the exception does not propagate to the caller
of `run` (the second component is `none`): it unwinds into the `try`/`catch`
wrapped around the last handler's invocation, and the error handler is
invoked with exactly `e` and the run's reference — so the one run invokes
both the terminal handler and the error handler. -/
theorem C8_terminal_raise_caught_by_last_boundary (impl : Impl) (e : Err)
    (gs : List GP) (g : GP) (fuel : Nat) (addr : Addr) (h : Heap) :
    (runChain ⟨impl, some e⟩ ((gs ++ [g]).length + fuel)
        (goodChain (gs ++ [g])) addr h).1.trace
      = descEvents addr (gs ++ [g]) 0 (h addr)
        ++ [Event.terminalCall addr (preCtx (gs ++ [g]) (h addr)),
            Event.errorCall e addr (preCtx (gs ++ [g]) (h addr))]
    ∧ (runChain ⟨impl, some e⟩ ((gs ++ [g]).length + fuel)
        (goodChain (gs ++ [g])) addr h).2 = none := by
  rw [goodRunThrow]
  exact ⟨rfl, rfl⟩

@[simp] theorem descEvents_countT (addr : Addr) :
    ∀ (gs : List GP) (i : Nat) (c : Ctx),
      (descEvents addr gs i c).countP isTerminalEv = 0 := by
  intro gs
  induction gs with
  | nil => intro i c; rfl
  | cons g rest ih => intro i c; simp [descEvents, List.countP_cons, ih, isTerminalEv]

/-- C9: the executor does not enforce single use of a continuation.  For
every chain of well-behaved handlers around one handler that invokes its
zero-argument continuation a second time after the first invocation
completed the rest of the chain: the second invocation re-enters the
advance operation with the instance index now equal to the (current) chain
length, so the terminal handler is invoked a second time in the same run —
the trace ends with two terminal events, and `countP isTerminalEv = 2`. -/
theorem C9_second_continuation_call_reinvokes_terminal (impl : Impl)
    (gs1 : List GP) (ms : Muts) (gs2 : List GP) (fuel : Nat) (addr : Addr) (h : Heap) :
    (runChain ⟨impl, none⟩ (gs1.length + ((gs2.length + fuel) + 1))
        (goodChain gs1
          ++ (mutSteps ms ++ [HStep.callNext none, HStep.callNext none])
            :: goodChain gs2) addr h).1.trace
      = descEvents addr gs1 0 (h addr)
        ++ Event.handlerCall gs1.length addr (preCtx gs1 (h addr))
          :: descEvents addr gs2 (gs1.length + 1)
              (applyMs ms (preCtx gs1 (h addr)))
        ++ [Event.terminalCall addr
              (preCtx gs2 (applyMs ms (preCtx gs1 (h addr)))),
            Event.terminalCall addr
              (postFold gs2 (preCtx gs2 (applyMs ms (preCtx gs1 (h addr)))))]
    ∧ (runChain ⟨impl, none⟩ (gs1.length + ((gs2.length + fuel) + 1))
        (goodChain gs1
          ++ (mutSteps ms ++ [HStep.callNext none, HStep.callNext none])
            :: goodChain gs2) addr h).1.trace.countP isTerminalEv = 2 := by
  have hdn := next_doubleNext impl fuel
    { middlewares := goodChain gs1
        ++ (mutSteps ms ++ [HStep.callNext none, HStep.callNext none]) :: goodChain gs2
      currentMiddlewareIndex := gs1.length
      heap := heapSet h addr (preCtx gs1 (h addr))
      trace := descEvents addr gs1 0 (h addr) }
    addr ms gs2 (goodChain gs1) rfl (by simp)
  dsimp only at hdn
  rw [runPre, hdn, unwind_none]
  dsimp only
  constructor
  · simp [List.append_assoc]
  · simp [List.countP_append, List.countP_cons, isTerminalEv]

/-- C10: an append performed while a run is in progress takes effect in
that same run.  For every chain of well-behaved handlers around one handler
that appends a new well-behaved handler and then advances: the chain length
is re-read at each advance, so the appended handler is invoked — at the
position past the original end, after the original suffix and before the
terminal handler — within the current run, and the terminal handler sees
its pre-continuation writes. -/
theorem C10_midrun_append_executes_in_same_run (impl : Impl) (gs1 : List GP)
    (ms : Muts) (np : GP) (gs2 : List GP) (fuel : Nat) (addr : Addr) (h : Heap) :
    (runChain ⟨impl, none⟩ (gs1.length + (((gs2 ++ [np]).length + fuel) + 1))
        (goodChain gs1
          ++ (mutSteps ms
              ++ HStep.append (goodBody np.1 np.2) :: [HStep.callNext none])
            :: goodChain gs2) addr h).1.trace
      = descEvents addr gs1 0 (h addr)
        ++ Event.handlerCall gs1.length addr (preCtx gs1 (h addr))
          :: (descEvents addr gs2 (gs1.length + 1)
                (applyMs ms (preCtx gs1 (h addr)))
              ++ [Event.handlerCall (gs1.length + 1 + gs2.length) addr
                    (preCtx gs2 (applyMs ms (preCtx gs1 (h addr))))])
        ++ [Event.terminalCall addr
              (preCtx (gs2 ++ [np]) (applyMs ms (preCtx gs1 (h addr))))] := by
  have hap := next_appendNext impl fuel
    { middlewares := goodChain gs1
        ++ (mutSteps ms
            ++ HStep.append (goodBody np.1 np.2) :: [HStep.callNext none])
          :: goodChain gs2
      currentMiddlewareIndex := gs1.length
      heap := heapSet h addr (preCtx gs1 (h addr))
      trace := descEvents addr gs1 0 (h addr) }
    addr ms np gs2 (goodChain gs1) rfl (by simp)
  dsimp only at hap
  rw [runPre, hap, unwind_none]
  rw [descEvents_append_single]
  simp [List.append_assoc]

theorem getElem?_append_lt {α : Type} :
    ∀ (l1 l2 : List α) (j : Nat), j < l1.length → (l1 ++ l2)[j]? = l1[j]? := by
  intro l1
  induction l1 with
  | nil => intro l2 j hj; simp at hj
  | cons x xs ih =>
      intro l2 j hj
      cases j with
      | zero => simp
      | succ j => simpa using ih l2 j (by simpa using hj)

theorem descEvents_getElem (addr : Addr) :
    ∀ (gs : List GP) (j i : Nat) (c : Ctx), j < gs.length →
      (descEvents addr gs i c)[j]?
        = some (Event.handlerCall (i + j) addr (preCtx (gs.take j) c)) := by
  intro gs
  induction gs with
  | nil => intro j i c hj; simp at hj
  | cons g rest ih =>
      intro j i c hj
      cases j with
      | zero => simp [descEvents, preCtx]
      | succ j =>
          have := ih j (i + 1) (applyMs g.1 c) (by simpa using hj)
          simp only [descEvents, List.getElem?_cons_succ, this, List.take_succ_cons, preCtx]
          congr 2
          omega

/-- C5, counterexample.  The claim asserts (for every chain instance, i.e.
both implementations) that two sequential `run` calls are independent and
the second again executes every handler from position 0.  `MiddlewareClass.excute`
never resets `currentMiddlewareIndex`, so after a first run over the
one-handler chain the index is stuck at the chain length: the second run
(with a fresh context at reference 1) invokes the terminal handler
immediately and executes no handler at all — the full two-run trace holds
exactly one handler invocation. -/
theorem C5_cex_MiddlewareClass_index_not_reset :
    (excute ⟨Impl.impl1, none⟩ 1
        (excute ⟨Impl.impl1, none⟩ 1 (initSt [[HStep.callNext none]] emptyHeap) 0).1
        1).1.trace
      = [Event.handlerCall 0 0 [], Event.terminalCall 0 [], Event.terminalCall 1 []]
    ∧ (excute ⟨Impl.impl1, none⟩ 1
        (excute ⟨Impl.impl1, none⟩ 1 (initSt [[HStep.callNext none]] emptyHeap) 0).1
        1).1.trace.countP isHandlerEv = 1 := by
  refine ⟨by decide, by decide⟩

/-- C5, as amended: the independent-runs guarantee holds for the
`Middleware` implementation, whose `excute` resets `currentIndex` to `0`.
For every chain of well-behaved handlers and two sequential `excute` calls
on the same instance with two distinct context references: the second run
again executes every handler from position 0 (its events are again
`descEvents ... 0`), and the record its handlers and terminal observe is
the second reference's own record, untouched by the first run's mutations.
(`MiddlewareClass` instead resumes at the stuck index, see the
counterexample.) -/
theorem C5_amended_Middleware_sequential_runs_independent (gs : List GP)
    (fuel1 fuel2 : Nat) (addr1 addr2 : Addr) (hne : addr1 ≠ addr2) (h : Heap) :
    (excute ⟨Impl.impl2, none⟩ (gs.length + fuel2)
        (excute ⟨Impl.impl2, none⟩ (gs.length + fuel1)
          (initSt (goodChain gs) h) addr1).1
        addr2).1.trace
      = (descEvents addr1 gs 0 (h addr1)
          ++ [Event.terminalCall addr1 (preCtx gs (h addr1))])
        ++ (descEvents addr2 gs 0 (h addr2)
          ++ [Event.terminalCall addr2 (preCtx gs (h addr2))]) := by
  rw [show excute ⟨Impl.impl2, none⟩ (gs.length + fuel1) (initSt (goodChain gs) h) addr1
      = runChain ⟨Impl.impl2, none⟩ (gs.length + fuel1) (goodChain gs) addr1 h from rfl,
    goodRunClean]
  dsimp only
  rw [excute]
  dsimp only
  have hh : ∀ c : Ctx, heapSet h addr1 c addr2 = h addr2 := fun c =>
    heapSet_get_ne h addr1 c addr2 (Ne.symm hne)
  have hd := lpDesc ⟨Impl.impl2, none⟩ [] gs fuel2
    { middlewares := goodChain gs
      currentMiddlewareIndex := 0
      heap := heapSet h addr1 (postFold gs (preCtx gs (h addr1)))
      trace := descEvents addr1 gs 0 (h addr1)
        ++ [Event.terminalCall addr1 (preCtx gs (h addr1))] }
    addr2 [] (by simp) rfl
  dsimp only at hd
  rw [hd]
  rw [next_terminal _ _ _ _ (by simp)]
  rw [routerHandler]
  dsimp only
  rw [unwind_none]
  dsimp only
  simp [hh, List.append_assoc]

/-- C4: the reference every handler, the terminal handler, and the error
handler receive is the very reference passed to `run` — for every
configuration, every chain of arbitrary handler behaviours, and every fuel,
each recorded event carries `addr` itself, not a copy.  Consequently (the
well-behaved-chain instance) mutation is the only hand-off: the record
handler `j` observes is exactly the writes of handlers `0..j-1` applied to
the caller's record, and the terminal handler observes all of them. -/
theorem C4_shared_reference_identity_and_mutation_visibility (cfg : Config)
    (fuel : Nat) (hs : List Handler) (addr : Addr) (h : Heap)
    (impl : Impl) (gs : List GP) (fuel2 : Nat) (j : Nat) (hj : j < gs.length) :
    (∀ ev ∈ (runChain cfg fuel hs addr h).1.trace, evAddr ev = addr)
    ∧ (runChain ⟨impl, none⟩ (gs.length + fuel2) (goodChain gs) addr h).1.trace.getD j
        (Event.errorCall 0 0 [])
      = Event.handlerCall j addr (preCtx (gs.take j) (h addr))
    ∧ (runChain ⟨impl, none⟩ (gs.length + fuel2) (goodChain gs) addr h).1.trace.getD
        gs.length (Event.errorCall 0 0 [])
      = Event.terminalCall addr (preCtx gs (h addr)) := by
  refine ⟨?_, ?_, ?_⟩
  · intro ev hev
    rw [runChain, excute_initSt] at hev
    obtain ⟨Δ, hΔ, ha⟩ := next_addr cfg fuel (initSt hs h) addr none
    rw [hΔ] at hev
    simp only [initSt, List.nil_append] at hev
    exact ha ev hev
  · rw [goodRunClean]
    dsimp only
    rw [getD_append_lt _ _ _ _ (by simp [hj])]
    rw [descEvents_getD addr _ gs j 0 (h addr) hj]
    simp
  · rw [goodRunClean]
    dsimp only
    have hlen := descEvents_length addr gs 0 (h addr)
    rw [← hlen]
    exact getD_append_cons _ _ _ _

/-- C6, counterexample.  The claim asserts the continuation handed to the
handler at position `i` is bound at construction time to position `i + 1`,
so that *whenever* it is invoked execution resumes at `i + 1`.  In both
implementations the continuation only captures `req`; the resume position
is `this.currentMiddlewareIndex`, shared mutable instance state read at
invocation time.  Concretely: handler 0 of a two-handler chain invokes its
continuation twice; were the claim true, handler 1 (position `0 + 1`) would
run twice.  Instead handler 1 runs once and the second invocation resumes
at the then-current index 2 — the terminal handler. -/
theorem C6_cex_continuation_not_bound_to_position :
    (runChain ⟨Impl.impl2, none⟩ 5
        [[HStep.callNext none, HStep.callNext none], [HStep.callNext none]]
        0 emptyHeap).1.trace
      = [Event.handlerCall 0 0 [], Event.handlerCall 1 0 [],
         Event.terminalCall 0 [], Event.terminalCall 0 []]
    ∧ (runChain ⟨Impl.impl2, none⟩ 5
        [[HStep.callNext none, HStep.callNext none], [HStep.callNext none]]
        0 emptyHeap).1.trace.countP (isHandlerAt 1) = 1
    ∧ (runChain ⟨Impl.impl2, none⟩ 5
        [[HStep.callNext none, HStep.callNext none], [HStep.callNext none]]
        0 emptyHeap).1.trace.countP isTerminalEv = 2 := by
  refine ⟨by decide, by decide, by decide⟩

/-- C6, as amended: each advance step constructs a fresh continuation bound
at construction time to the run's context reference (every event of every
run carries the reference `run` received); the resume position, however, is
read from the executor's shared index at invocation time.  Invoked in the
normal nested way, that index is `i + 1`, so a run over well-behaved
handlers resumes at successive positions: the `j`-th event is the
invocation of the handler at position `j` with the shared record.  (A
delayed or repeated invocation instead resumes at whatever the index then
is, see the counterexample.) -/
theorem C6_amended_fresh_continuation_context_bound_position_shared
    (impl : Impl) (gs : List GP) (fuel : Nat) (addr : Addr) (h : Heap)
    (j : Nat) (hj : j < gs.length) :
    (runChain ⟨impl, none⟩ (gs.length + fuel) (goodChain gs) addr h).1.trace[j]?
      = some (Event.handlerCall j addr (preCtx (gs.take j) (h addr)))
    ∧ ∀ ev ∈ (runChain ⟨impl, none⟩ (gs.length + fuel) (goodChain gs) addr h).1.trace,
        evAddr ev = addr := by
  constructor
  · rw [goodRunClean]
    dsimp only
    rw [getElem?_append_lt _ _ _ (by simp [hj])]
    rw [descEvents_getElem addr gs j 0 (h addr) hj]
    simp
  · intro ev hev
    rw [runChain, excute_initSt] at hev
    obtain ⟨Δ, hΔ, ha⟩ := next_addr ⟨impl, none⟩ (gs.length + fuel)
      (initSt (goodChain gs) h) addr none
    rw [hΔ] at hev
    simp only [initSt, List.nil_append] at hev
    exact ha ev hev

/-! ## The phase invariant under the single-use discipline -/

theorem phased_cons_h (e : Event) (l : List Event) (he : isHandlerEv e = true) :
    phased (e :: l) = phased l := by
  simp [phased, he]

theorem phased_append_nonh :
    ∀ (l l2 : List Event), phased l = true →
      (∀ x ∈ l2, isHandlerEv x = false) → phased (l ++ l2) = true := by
  intro l
  induction l with
  | nil =>
      intro l2 _ h2
      cases l2 with
      | nil => rfl
      | cons e r =>
          have he : isHandlerEv e = false := h2 e (by simp)
          rw [List.nil_append, phased, he]
          simp only [Bool.false_eq_true, if_false, List.all_eq_true, Bool.not_eq_true']
          intro x hx
          exact h2 x (by simp [hx])
  | cons e l ih =>
      intro l2 hp h2
      by_cases he : isHandlerEv e = true
      · rw [List.cons_append, phased_cons_h e _ he]
        rw [phased_cons_h e l he] at hp
        exact ih l2 hp h2
      · have he' : isHandlerEv e = false := by
          revert he
          cases isHandlerEv e <;> simp
        simp only [phased, he', Bool.false_eq_true, if_false, List.all_eq_true,
          Bool.not_eq_true'] at hp
        simp only [List.cons_append, phased, he', Bool.false_eq_true, if_false,
          List.all_eq_true, Bool.not_eq_true']
        intro x hx
        rcases List.mem_append.mp hx with hx | hx
        · exact hp x hx
        · exact h2 x hx

theorem chainOk_append_single (hs : List Handler) (b : Handler)
    (hh : chainOk hs = true) (hb : handlerOk b = true) :
    chainOk (hs ++ [b]) = true := by
  simp only [chainOk, List.all_append, List.all_cons, List.all_nil, Bool.and_true,
    Bool.and_eq_true]
  exact ⟨by simpa [chainOk] using hh, hb⟩

theorem chainOk_getD :
    ∀ (hs : List Handler) (i : Nat), i < hs.length → chainOk hs = true →
      handlerOk (hs.getD i []) = true := by
  intro hs
  induction hs with
  | nil => intro i hi _; simp at hi
  | cons b rest ih =>
      intro i hi hok
      simp only [chainOk, List.all_cons, Bool.and_eq_true] at hok
      cases i with
      | zero => exact hok.1
      | succ i =>
          exact ih i (by simpa using hi) (by simpa [chainOk] using hok.2)

/-- A body that never invokes its continuation adds no events, and keeps
the chain disciplined (its appends are disciplined sub-bodies). -/
theorem runBody_zeroNext (addr : Addr) (k : St → Option Err → St × Option Err) :
    ∀ (body : List HStep) (st : St), stepsOk body = true → nextCount body = 0 →
      chainOk st.middlewares = true →
      (runBody k addr st body).1.trace = st.trace
      ∧ chainOk (runBody k addr st body).1.middlewares = true := by
  intro body
  induction body with
  | nil => intro st _ _ hok; exact ⟨rfl, hok⟩
  | cons s rest ih =>
      intro st hsteps hcount hok
      have hso : stepOk s = true ∧ stepsOk rest = true := by
        simpa [stepsOk, Bool.and_eq_true] using hsteps
      cases s with
      | mutate kk v =>
          rw [runBody]
          exact ih _ hso.2 (by simpa [nextCount, List.countP_cons, isNextStep] using hcount)
            hok
      | append b =>
          rw [runBody]
          refine ih _ hso.2
            (by simpa [nextCount, List.countP_cons, isNextStep] using hcount) ?_
          exact chainOk_append_single _ _ hok
            (by simpa [stepOk, handlerOk, Bool.and_eq_true] using hso.1)
      | raise e => exact ⟨rfl, hok⟩
      | callNext e =>
          exfalso
          simp [nextCount, List.countP_cons, isNextStep] at hcount

/-- A disciplined body, run with a continuation that only appends phased
event blocks and keeps the chain disciplined, itself appends a phased event
block and keeps the chain disciplined. -/
theorem runBody_phased (addr : Addr) (k : St → Option Err → St × Option Err)
    (hk : ∀ (s : St) (e : Option Err), chainOk s.middlewares = true →
      ∃ Δ, (k s e).1.trace = s.trace ++ Δ ∧ phased Δ = true
        ∧ chainOk (k s e).1.middlewares = true) :
    ∀ (body : List HStep) (st : St), stepsOk body = true → nextCount body ≤ 1 →
      chainOk st.middlewares = true →
      ∃ Δ, (runBody k addr st body).1.trace = st.trace ++ Δ ∧ phased Δ = true
        ∧ chainOk (runBody k addr st body).1.middlewares = true := by
  intro body
  induction body with
  | nil => intro st _ _ hok; exact ⟨[], by simp [runBody], rfl, hok⟩
  | cons s rest ih =>
      intro st hsteps hcount hok
      have hso : stepOk s = true ∧ stepsOk rest = true := by
        simpa [stepsOk, Bool.and_eq_true] using hsteps
      cases s with
      | mutate kk v =>
          rw [runBody]
          exact ih _ hso.2
            (by simpa [nextCount, List.countP_cons, isNextStep] using hcount) hok
      | append b =>
          rw [runBody]
          refine ih _ hso.2
            (by simpa [nextCount, List.countP_cons, isNextStep] using hcount) ?_
          exact chainOk_append_single _ _ hok
            (by simpa [stepOk, handlerOk, Bool.and_eq_true] using hso.1)
      | raise e => exact ⟨[], by simp [runBody], rfl, hok⟩
      | callNext e =>
          rw [runBody]
          obtain ⟨Δ1, h1, hp1, hc1⟩ := hk st e hok
          have hrest0 : nextCount rest = 0 := by
            simp only [nextCount, List.countP_cons, isNextStep, if_true] at hcount ⊢
            omega
          cases hres : k st e with
          | mk st2 exc =>
            rw [hres] at h1 hc1
            cases exc with
            | none =>
                obtain ⟨hz1, hz2⟩ := runBody_zeroNext addr k rest st2 hso.2 hrest0 hc1
                exact ⟨Δ1, by dsimp only; rw [hz1]; exact h1, hp1, by dsimp only; exact hz2⟩
            | some ex => exact ⟨Δ1, by dsimp only; exact h1, hp1, by dsimp only; exact hc1⟩

/-- Any run of the executor over a disciplined chain appends a phased block
of events: once a terminal-or-error event occurs, no handler invocation
follows. -/
theorem next_phased (cfg : Config) :
    ∀ (fuel : Nat) (st : St) (addr : Addr) (err : Option Err),
      chainOk st.middlewares = true →
      ∃ Δ, (next cfg fuel st addr err).1.trace = st.trace ++ Δ ∧ phased Δ = true
        ∧ chainOk (next cfg fuel st addr err).1.middlewares = true := by
  have hstep :
      ∀ (fuel : Nat),
        (∀ (st : St) (addr : Addr) (err : Option Err),
          chainOk st.middlewares = true →
          ∃ Δ, (next cfg fuel st addr err).1.trace = st.trace ++ Δ ∧ phased Δ = true
            ∧ chainOk (next cfg fuel st addr err).1.middlewares = true) →
        ∀ (st : St) (addr : Addr) (err : Option Err),
          chainOk st.middlewares = true →
          ∃ Δ, (next cfg (fuel + 1) st addr err).1.trace = st.trace ++ Δ
            ∧ phased Δ = true
            ∧ chainOk (next cfg (fuel + 1) st addr err).1.middlewares = true := by
    intro fuel ih st addr err hok
    cases err with
    | some e =>
        exact ⟨[Event.errorCall e addr (st.heap addr)],
          by rw [next_some]; rfl, by simp [phased, isHandlerEv], by rw [next_some]; exact hok⟩
    | none =>
        by_cases hg : st.middlewares.length ≤ st.currentMiddlewareIndex
        · exact ⟨[Event.terminalCall addr (st.heap addr)],
            by rw [next_terminal _ _ _ _ hg]; rfl,
            by simp [phased, isHandlerEv],
            by rw [next_terminal _ _ _ _ hg]; exact hok⟩
        · rw [next_step cfg fuel st addr (not_le.mp hg)]
          have hbodyOk : handlerOk (st.middlewares.getD st.currentMiddlewareIndex [])
              = true :=
            chainOk_getD _ _ (not_le.mp hg) hok
          have hpair : stepsOk (st.middlewares.getD st.currentMiddlewareIndex []) = true
              ∧ Nat.ble (nextCount (st.middlewares.getD st.currentMiddlewareIndex [])) 1
                = true := by
            simpa [handlerOk, Bool.and_eq_true] using hbodyOk
          have hsteps := hpair.1
          have hcount : nextCount (st.middlewares.getD st.currentMiddlewareIndex []) ≤ 1 :=
            Nat.le_of_ble_eq_true hpair.2
          obtain ⟨ΔB, hB, hpB, hcB⟩ :=
            runBody_phased addr (fun s e => next cfg fuel s addr (contAdj cfg e))
              (fun s e => ih s addr (contAdj cfg e))
              (st.middlewares.getD st.currentMiddlewareIndex [])
              { st with
                  currentMiddlewareIndex := st.currentMiddlewareIndex + 1,
                  trace := st.trace ++
                    [Event.handlerCall st.currentMiddlewareIndex addr (st.heap addr)] }
              hsteps hcount (by simpa [chainOk] using hok)
          cases hres :
              runBody (fun s e => next cfg fuel s addr (contAdj cfg e)) addr
                { st with
                    currentMiddlewareIndex := st.currentMiddlewareIndex + 1,
                    trace := st.trace ++
                      [Event.handlerCall st.currentMiddlewareIndex addr (st.heap addr)] }
                (st.middlewares.getD st.currentMiddlewareIndex []) with
          | mk st3 exc =>
            rw [hres] at hB hcB
            cases exc with
            | none =>
                refine ⟨Event.handlerCall st.currentMiddlewareIndex addr (st.heap addr)
                  :: ΔB, ?_, ?_, ?_⟩
                · dsimp only
                  dsimp only at hB
                  rw [hB]
                  simp
                · rw [phased_cons_h
                    (Event.handlerCall st.currentMiddlewareIndex addr (st.heap addr)) _ rfl]
                  exact hpB
                · exact hcB
            | some ex =>
                refine ⟨Event.handlerCall st.currentMiddlewareIndex addr (st.heap addr)
                  :: (ΔB ++ [Event.errorCall ex addr (st3.heap addr)]), ?_, ?_, ?_⟩
                · dsimp only
                  simp only [errorHandler]
                  dsimp only at hB
                  rw [hB]
                  simp
                · rw [phased_cons_h
                    (Event.handlerCall st.currentMiddlewareIndex addr (st.heap addr)) _ rfl]
                  exact phased_append_nonh ΔB _ hpB (by simp [isHandlerEv])
                · dsimp only
                  simp only [errorHandler]
                  exact hcB
  intro fuel
  induction fuel with
  | zero =>
      intro st addr err hok
      cases err with
      | some e =>
          exact ⟨[Event.errorCall e addr (st.heap addr)],
            by rw [next_some]; rfl, by simp [phased, isHandlerEv],
            by rw [next_some]; exact hok⟩
      | none =>
          by_cases hg : st.middlewares.length ≤ st.currentMiddlewareIndex
          · exact ⟨[Event.terminalCall addr (st.heap addr)],
              by rw [next_terminal _ _ _ _ hg]; rfl,
              by simp [phased, isHandlerEv],
              by rw [next_terminal _ _ _ _ hg]; exact hok⟩
          · refine ⟨[], ?_, rfl, ?_⟩
            · rw [next.eq_def]
              simp [if_neg hg]
            · rw [next.eq_def]
              simp only [if_neg hg]
              exact hok
  | succ fuel ih => exact hstep fuel ih

/-- The phase invariant in split form: after a terminal-or-error event,
every later event is terminal-or-error. -/
theorem phased_no_handler_after :
    ∀ (l : List Event), phased l = true →
      ∀ (l1 : List Event) (e : Event) (l2 : List Event), l = l1 ++ e :: l2 →
        isHandlerEv e = false → ∀ x ∈ l2, isHandlerEv x = false := by
  intro l hp l1
  induction l1 generalizing l with
  | nil =>
      intro e l2 hsplit he x hx
      subst hsplit
      simp only [List.nil_append, phased, he, Bool.false_eq_true, if_false,
        List.all_eq_true, Bool.not_eq_true'] at hp
      exact hp x hx
  | cons a l1 ih =>
      intro e l2 hsplit he x hx
      subst hsplit
      by_cases ha : isHandlerEv a = true
      · rw [List.cons_append, phased_cons_h a _ ha] at hp
        exact ih _ hp e l2 rfl he x hx
      · have ha' : isHandlerEv a = false := by
          revert ha
          cases isHandlerEv a <;> simp
        simp only [List.cons_append, phased, ha', Bool.false_eq_true, if_false,
          List.all_eq_true, Bool.not_eq_true'] at hp
        exact hp x (by simp [hx])

/-- C7, counterexample.  The claim asserts Error is terminal for every run:
once the error handler has been invoked, no further chain handler executes.
The executor does not enforce this: a handler that signals an error through
its continuation and then invokes the continuation again cleanly makes the
chain resume at the next handler after the error handler ran.  Concretely,
handler 0 calls `next(7)` (error handler runs) and then `next()` — and
handler 1 and the terminal handler still execute, so the trace is not
phased. -/
theorem C7_cex_chain_resumes_after_error :
    (runChain ⟨Impl.impl2, none⟩ 5
        [[HStep.callNext (some 7), HStep.callNext none], [HStep.callNext none]]
        0 emptyHeap).1.trace
      = [Event.handlerCall 0 0 [], Event.errorCall 7 0 [],
         Event.handlerCall 1 0 [], Event.terminalCall 0 []]
    ∧ phased (runChain ⟨Impl.impl2, none⟩ 5
        [[HStep.callNext (some 7), HStep.callNext none], [HStep.callNext none]]
        0 emptyHeap).1.trace = false := by
  refine ⟨by decide, by decide⟩

/-- C7, as amended: Error and Terminated are terminal for every run over a
*disciplined* chain — one whose handlers (including any they append
mid-run) invoke their continuation at most once.  In any such run, once the
error handler or the terminal handler has been invoked, no chain handler
executes for the remainder of the run: every event after a
terminal-or-error event is itself terminal-or-error.  (Without the
discipline a handler can invoke its continuation again after the error,
see the counterexample.) -/
theorem C7_amended_error_and_terminated_terminal_under_single_use
    (cfg : Config) (fuel : Nat) (hs : List Handler) (addr : Addr) (h : Heap)
    (hok : chainOk hs = true)
    (l1 : List Event) (e : Event) (l2 : List Event)
    (hsplit : (runChain cfg fuel hs addr h).1.trace = l1 ++ e :: l2)
    (he : isHandlerEv e = false) :
    ∀ x ∈ l2, isHandlerEv x = false := by
  rw [runChain, excute_initSt] at hsplit
  obtain ⟨Δ, hΔ, hp, _⟩ := next_phased cfg fuel (initSt hs h) addr none
    (by simpa [initSt, chainOk] using hok)
  rw [hΔ] at hsplit
  simp only [initSt, List.nil_append] at hsplit
  exact phased_no_handler_after Δ hp l1 e l2 hsplit he

/-! ## Witnesses -/

/-- Witness for C4: a run of an arbitrary one-handler chain at reference 5,
and a two-good-handler run whose second handler observes the first
handler's write and whose terminal handler observes both. -/
theorem C4_witness :
    1 < 2
    ∧ ((∀ ev ∈ (runChain ⟨Impl.impl1, none⟩ 3 [[HStep.callNext none]] 5 emptyHeap).1.trace,
          evAddr ev = 5)
      ∧ (runChain ⟨Impl.impl2, none⟩ (2 + 0)
            (goodChain [([(1, 10)], []), ([(2, 20)], [])]) 5 emptyHeap).1.trace.getD 1
            (Event.errorCall 0 0 [])
          = Event.handlerCall 1 5 [(1, 10)]
      ∧ (runChain ⟨Impl.impl2, none⟩ (2 + 0)
            (goodChain [([(1, 10)], []), ([(2, 20)], [])]) 5 emptyHeap).1.trace.getD 2
            (Event.errorCall 0 0 [])
          = Event.terminalCall 5 [(2, 20), (1, 10)]) :=
  ⟨by decide,
    C4_shared_reference_identity_and_mutation_visibility ⟨Impl.impl1, none⟩ 3
      [[HStep.callNext none]] 5 emptyHeap Impl.impl2 [([(1, 10)], []), ([(2, 20)], [])]
      0 1 (by decide)⟩

/-- Witness for the amended C5: two sequential `Middleware` runs over a
one-handler chain with distinct references 0 and 1; the second run again
starts at position 0 and sees reference 1's untouched record. -/
theorem C5_witness :
    (0 : Addr) ≠ 1
    ∧ (excute ⟨Impl.impl2, none⟩ (1 + 0)
        (excute ⟨Impl.impl2, none⟩ (1 + 0)
          (initSt (goodChain [([(1, 10)], [])]) emptyHeap) 0).1 1).1.trace
      = [Event.handlerCall 0 0 [], Event.terminalCall 0 [(1, 10)],
         Event.handlerCall 0 1 [], Event.terminalCall 1 [(1, 10)]] :=
  ⟨by decide,
    C5_amended_Middleware_sequential_runs_independent [([(1, 10)], [])] 0 0 0 1
      (by decide) emptyHeap⟩

/-- Witness for the amended C6: in a two-good-handler run the event at
index 1 is the invocation of the handler at position 1, carrying the run's
reference 4 and the first handler's write. -/
theorem C6_witness :
    1 < 2
    ∧ ((runChain ⟨Impl.impl1, none⟩ (2 + 1)
          (goodChain [([(3, 30)], []), ([], [])]) 4 emptyHeap).1.trace[1]?
        = some (Event.handlerCall 1 4 [(3, 30)])
      ∧ ∀ ev ∈ (runChain ⟨Impl.impl1, none⟩ (2 + 1)
          (goodChain [([(3, 30)], []), ([], [])]) 4 emptyHeap).1.trace,
          evAddr ev = 4) :=
  ⟨by decide,
    C6_amended_fresh_continuation_context_bound_position_shared Impl.impl1
      [([(3, 30)], []), ([], [])] 1 4 emptyHeap 1 (by decide)⟩

/-- Witness for the amended C7: a disciplined one-handler chain that
signals an error; after the error event nothing (vacuously) follows, and
the hypotheses are discharged concretely. -/
theorem C7_witness :
    chainOk [[HStep.callNext (some 3)]] = true
    ∧ (runChain ⟨Impl.impl2, none⟩ 1 [[HStep.callNext (some 3)]] 0 emptyHeap).1.trace
      = [Event.handlerCall 0 0 []] ++ Event.errorCall 3 0 [] :: []
    ∧ isHandlerEv (Event.errorCall 3 0 []) = false
    ∧ ∀ x ∈ ([] : List Event), isHandlerEv x = false :=
  ⟨by decide, by decide, by decide,
    C7_amended_error_and_terminated_terminal_under_single_use ⟨Impl.impl2, none⟩ 1
      [[HStep.callNext (some 3)]] 0 emptyHeap (by decide)
      [Event.handlerCall 0 0 []] (Event.errorCall 3 0 []) [] (by decide) (by decide)⟩

end MwChain
